import Mathlib

/-!
# Verification of the gps_heatmap core against its specification

Shallow embedding of the algorithmic core of the `gps_heatmap` Python package
(`geo.py`, `heatmap.py`, `timeseries.py`) and proofs of the specification's
claims about it.

Modelling conventions:
* Planar pixel coordinates (`Point` in `geo.py`) are pairs of integers.
* Numeric values are embedded as rationals (`ℚ`) where the Python code works
  with exact machine-representable quantities, and as reals (`ℝ`) where the
  code uses transcendental functions (`math.log`, `math.e ** _`,
  `math.hypot`).
* The codebase targets Python 2 numeric semantics (the `value*1./max_value`
  guard idiom in `heatmap.py` only makes sense under integer `/` division):
  `/` on integers is floor division and `round` rounds half away from zero.
* `collections.Counter` / `dict` objects are embedded as association lists
  in insertion order with unique keys; a missing key reads as `0`
  (`Counter.__missing__` returns `0` and does not insert).
* Python exceptions (`min([])`, `max([])`) are embedded as `Option`:
  `none` models the raised error.
-/

namespace GpsHeatmap

/-- Planar pixel cell: `Point` in `geo.py` holds integer x and y. -/
abbrev Cell : Type := ℤ × ℤ

/-- Python 2 `round`: round half away from zero (`geo.py, Point.__new__`
composes `int(round(x))`, which on half-integers rounds away from zero). -/
def pyRound (q : ℚ) : ℤ :=
  if 0 ≤ q then ⌊q + 1/2⌋ else ⌈q - 1/2⌉

/-- `Point.__new__`: coordinates are rounded to nearest integer on
construction (`geo.py` lines 41-42). -/
def mkPoint (x y : ℚ) : Cell :=
  (pyRound x, pyRound y)

/-! ## Counter / dict embedding (`Heatmap.points` is a `collections.Counter`) -/

/-- First-match lookup in an association list (the embedding of `dict`
key lookup; real dicts have unique keys, so first-match is exact). -/
def lookupV {V : Type} : List (Cell × V) → Cell → Option V
  | [], _ => none
  | e :: rest, p => if e.1 = p then some e.2 else lookupV rest p

/-- `Counter.__getitem__`: a missing key reads as zero, and the read does
not insert the key (`collections.Counter.__missing__`). -/
def getCount {V : Type} [Zero V] (m : List (Cell × V)) (p : Cell) : V :=
  (lookupV m p).getD 0

/-- `dict.__setitem__`: replace the value in place if the key is present
(all occurrences; association lists arising from dicts have unique keys),
otherwise append the new binding at the end (insertion order). -/
def setVal {V : Type} : List (Cell × V) → Cell → V → List (Cell × V)
  | [], p, v => [(p, v)]
  | e :: rest, p, v =>
      if e.1 = p then (p, v) :: setVal rest p v else e :: setVal rest p v

/-- `Counter[point] += 1` (`Heatmap.update`, `heatmap.py` line 40). -/
def incr (m : List (Cell × ℕ)) (p : Cell) : List (Cell × ℕ) :=
  setVal m p (getCount m p + 1)

/-- Python `max(values)` for a possibly empty list: `none` models the
`ValueError` raised on an empty sequence. -/
def lmax {α : Type} [LinearOrder α] : List α → Option α
  | [] => none
  | x :: xs => some (xs.foldl max x)

/-- Python `min(values)`: `none` models the `ValueError` on empty input. -/
def lmin {α : Type} [LinearOrder α] : List α → Option α
  | [] => none
  | x :: xs => some (xs.foldl min x)

/-- `Heatmap.max_value` (`heatmap.py` lines 33-35): maximum of the stored
values; an error (`none`) on an empty map. -/
def maxValue {V : Type} [LinearOrder V] (m : List (Cell × V)) : Option V :=
  lmax (m.map Prod.snd)

/-- `Heatmap.min_value` (`heatmap.py` lines 29-31). -/
def minValue {V : Type} [LinearOrder V] (m : List (Cell × V)) : Option V :=
  lmin (m.map Prod.snd)

/-! ## Extent (`geo.py` lines 88-153)

`Extent.update` uses the Python idiom `A and f(A, new) or new` for both the
min and the max components; the embedding keeps that conditional structure
exactly (`A` is `self.max` / `self.min`, `None` at first, hence `Option`;
a two-element namedtuple is always truthy, a numeric value is falsy at 0).
-/

structure Extent where
  emin : Option (ℚ × ℚ)
  emax : Option (ℚ × ℚ)

/-- Python `max(...)` over a nonempty generator (`geo.py` lines 97-100);
the `[]` case is unreachable in the source (it would raise) and is given a
junk value, never used under the claims' nonemptiness hypothesis. -/
def listMaxQ : List ℚ → ℚ
  | [] => 0
  | x :: xs => xs.foldl max x

/-- Python `min(...)` over a nonempty generator. -/
def listMinQ : List ℚ → ℚ
  | [] => 0
  | x :: xs => xs.foldl min x

/-- One component of `self.max and max(self.max.c, new) or new`
(`geo.py` lines 102-103): if no previous max, take the new value; else
take `max(old, new)` unless that value is `0` (falsy!), in which case the
`or` falls through to the new value. -/
def andOrMax (cur : Option ℚ) (new : ℚ) : ℚ :=
  match cur with
  | none => new
  | some c => if max c new = 0 then new else max c new

/-- One component of `self.min and min(self.min.c, new) or new`
(`geo.py` lines 104-105). -/
def andOrMin (cur : Option ℚ) (new : ℚ) : ℚ :=
  match cur with
  | none => new
  | some c => if min c new = 0 then new else min c new

/-- `Extent.update` (`geo.py` lines 96-105). -/
def extentUpdate (e : Extent) (coords : List (ℚ × ℚ)) : Extent :=
  let max_x := listMaxQ (coords.map Prod.fst)
  let min_x := listMinQ (coords.map Prod.fst)
  let max_y := listMaxQ (coords.map Prod.snd)
  let min_y := listMinQ (coords.map Prod.snd)
  { emax := some (andOrMax (e.emax.map Prod.fst) max_x,
                  andOrMax (e.emax.map Prod.snd) max_y),
    emin := some (andOrMin (e.emin.map Prod.fst) min_x,
                  andOrMin (e.emin.map Prod.snd) min_y) }

/-! ## Quarter grouping (`timeseries.py` lines 14-15) -/

/-- `quarter_group`: `(date.year, (date.month-1)/3+1)` with Python 2
integer division (the codebase targets Python 2 `/` semantics). -/
def quarter_group (year month : ℕ) : ℕ × ℕ :=
  (year, (month - 1) / 3 + 1)

/-! ## Scaled clusterers (`heatmap.py` lines 87-119)

`ScaledClusterer.__init__` inverts a magnification factor `> 1` into a
reduction factor; `cluster_point` multiplies both coordinates by the scale
and rounds (`Point.__new__`); `cluster_points` is a generator that, in
count-once mode, suppresses consecutive points that fall into the same
cluster cell.  The generator keeps no state between calls (its
`prev_cluster_point` is a local starting at `None`).
-/

/-- `ScaledClusterer.__init__`: `if cluster_scale > 1.0: cluster_scale = 1./cluster_scale`. -/
def scaledInit (cluster_scale : ℚ) : ℚ :=
  if cluster_scale > 1 then 1 / cluster_scale else cluster_scale

/-- `ScaledClusterer.cluster_point`: `Point(x*scale, y*scale)` (rounding
to integers happens in `Point.__new__`). -/
def scaledClusterPoint (s : ℚ) (p : Cell) : Cell :=
  mkPoint ((p.1 : ℚ) * s) ((p.2 : ℚ) * s)

/-- `ScaledClusterer.cluster_points` loop body, mirroring the generator:
`prev` is the `prev_cluster_point` local; with `once = true` a point whose
cluster cell equals the previous one is not yielded. -/
def cpAux (once : Bool) (c : Cell → Cell) (prev : Option Cell) :
    List Cell → List Cell
  | [] => []
  | p :: rest =>
      let cp := c p
      if once then
        if some cp = prev then cpAux once c (some cp) rest
        else cp :: cpAux once c (some cp) rest
      else cp :: cpAux once c (some cp) rest

/-- `cluster_points(line)`: one full generator run (fresh `prev = None`). -/
def clusterPoints (once : Bool) (c : Cell → Cell) (line : List Cell) :
    List Cell :=
  cpAux once c none line

/-- `ScaledClusterer.cluster_points` with the `count_cluster_point_once`
flag (`OnceScaledClusterer` uses `true`, `MultiScaledClusterer` `false`). -/
def scaledClusterPoints (once : Bool) (s : ℚ) (line : List Cell) :
    List Cell :=
  clusterPoints once (scaledClusterPoint s) line

/-! ## Density map updates (`Heatmap.update`, `Heatmap.from_lines`) -/

/-- Number of occurrences of a cell in a list (used to state per-cell
count facts about the accumulated map). -/
def countCell (q : Cell) : List Cell → ℕ
  | [] => 0
  | p :: rest => (if q = p then 1 else 0) + countCell q rest

/-- `Heatmap.update(line)` (`heatmap.py` lines 37-40): feed the polyline
through the active clusterer's `cluster_points` and increment the count of
every produced cell.  The clusterer's point mapping is a per-call function
`cps` (all variants — identity, scaled once/multi, kernel — are such
functions). -/
def hUpdate (cps : List Cell → List Cell) (m : List (Cell × ℕ))
    (line : List Cell) : List (Cell × ℕ) :=
  (cps line).foldl incr m

/-- `Heatmap.from_lines` / repeated `update` over a list of polylines
(starting from the map `m`). -/
def buildMap (cps : List Cell → List Cell) (m : List (Cell × ℕ))
    (lines : List (List Cell)) : List (Cell × ℕ) :=
  lines.foldl (hUpdate cps) m

/-! ## Kernel clusterers (`heatmap.py` lines 122-175)

`weights_matrix` enumerates integer offsets `(x, y)` with
`-radius ≤ x, y ≤ radius`, keeps those whose weight at euclidean distance
`math.hypot(x, y)` is nonzero (`if weight:`), and `cluster_heatmap`
replaces every existing key's value by the weighted sum of the original
map's values over that neighbourhood.  Weights are reals (`math.e ** _`,
`math.hypot`).
-/

/-- The nested `for x in range(-r, r+1): for y in range(-r, r+1)` offset
enumeration of `weights_matrix` (`heatmap.py` lines 134-135). -/
def offsetsList (r : ℕ) : List (ℤ × ℤ) :=
  (List.range (2 * r + 1) ×ˢ List.range (2 * r + 1)).map
    (fun ij => ((ij.1 : ℤ) - r, (ij.2 : ℤ) - r))

/-- A kernel clusterer: the integer radius and the subclass's
`get_weight` function of the real euclidean distance. -/
structure Kernel where
  radius : ℕ
  weight : ℝ → ℝ

/-- `LinearKernelClusterer.get_weight` (`heatmap.py` lines 160-163):
`0` for `distance >= radius`, else `1 - distance/radius`. -/
noncomputable def linearKernel (r : ℕ) : Kernel where
  radius := r
  weight := fun d => if d ≥ (r : ℝ) then 0 else 1 - d / (r : ℝ)

/-- `GaussianKernelClusterer.get_weight` (`heatmap.py` lines 166-175):
`scale = log(256)/radius`; `0` for `distance >= radius`, else
`e ** (-distance * scale)`. -/
noncomputable def gaussianKernel (r : ℕ) : Kernel where
  radius := r
  weight := fun d => if d ≥ (r : ℝ) then 0 else
    Real.exp (-d * (Real.log 256 / (r : ℝ)))

/-- `KernelClusterer.weights_matrix` (`heatmap.py` lines 131-140): keep
offsets with nonzero weight at distance `hypot x y`. -/
noncomputable def weightsMatrix (k : Kernel) : List ((ℤ × ℤ) × ℝ) :=
  (offsetsList k.radius).filterMap fun o =>
    let distance := Real.sqrt (((o.1 : ℝ)) ^ 2 + ((o.2 : ℝ)) ^ 2)
    let w := k.weight distance
    if w ≠ 0 then some (o, w) else none

/-- `KernelClusterer.points(point)` (`heatmap.py` lines 142-144):
neighbours `Point(point.x+x, point.y+y)` with their weights. -/
noncomputable def kernelPoints (k : Kernel) (p : Cell) : List (Cell × ℝ) :=
  (weightsMatrix k).map fun ow => ((p.1 + ow.1.1, p.2 + ow.1.2), ow.2)

/-- The `clustered_value` accumulation of `cluster_heatmap`
(`heatmap.py` lines 149-153): sum `value * weight` over kernel points
whose source value is nonzero (`if value:`). -/
noncomputable def clusteredValue (k : Kernel) (m : List (Cell × ℝ))
    (p : Cell) : ℝ :=
  ((kernelPoints k p).map fun kw =>
      let value := getCount m kw.1
      if value ≠ 0 then value * kw.2 else 0).sum

/-- `KernelClusterer.cluster_heatmap` (`heatmap.py` lines 146-155): a
fresh map assigning to every existing key of the source the weighted
neighbourhood sum of the source's values. -/
noncomputable def clusterHeatmapK (k : Kernel) (m : List (Cell × ℝ)) :
    List (Cell × ℝ) :=
  m.foldl (fun acc e => setVal acc e.1 (clusteredValue k m e.1)) []

/-! ## Frame embedding: normalize and its reads of the source map

The only operations `normalize`/`cluster_heatmap` perform on the source
map are `Counter` reads (`heatmap.points[kernel_point]`, iteration over
`items()`); `Counter.__missing__` returns `0` *without* inserting the
key, and every write (`clustered[point] = ...`,
`normalized[point] = ...`) targets a freshly constructed map.  The
state-threaded embedding below passes the source map through every
indexed read and returns it next to the result, so the frame claim is
the statement that the threaded source comes back unchanged.
-/

/-- `Counter.__getitem__` as a state transformer: a read returns the
value (default `0`) and leaves the map unchanged (unlike `defaultdict`,
whose read of a missing key would insert the default). -/
def counterGet (m : List (Cell × ℝ)) (p : Cell) :
    List (Cell × ℝ) × ℝ :=
  (m, getCount m p)

/-- Inner loop of `cluster_heatmap` threading the source map through
every `heatmap.points[kernel_point]` read (`acc` is `clustered_value`). -/
noncomputable def clusteredValueSt :
    List (Cell × ℝ) → List (Cell × ℝ) → ℝ → List (Cell × ℝ) × ℝ
  | m, [], acc => (m, acc)
  | m, kw :: rest, acc =>
      let mv := counterGet m kw.1
      clusteredValueSt mv.1 rest (if mv.2 ≠ 0 then acc + mv.2 * kw.2 else acc)

/-- `cluster_heatmap` threading the source map: iterate the source's
entries, write only into the fresh `clustered` map. -/
noncomputable def clusterHeatmapSt (k : Kernel) (m : List (Cell × ℝ)) :
    List (Cell × ℝ) × List (Cell × ℝ) :=
  m.foldl
    (fun st e =>
      let r := clusteredValueSt st.1 (kernelPoints k e.1) 0
      (r.1, setVal st.2 e.1 r.2))
    (m, [])

/-- The clusterer variants as seen by `cluster_heatmap`: the base
`Clusterer` returns the heatmap itself (`heatmap.py` lines 83-84), and
the scaled subclasses inherit that; kernel clusterers (linear/gaussian)
build a fresh map. -/
inductive ClustererKind where
  | ident : ClustererKind
  | kernel : Kernel → ClustererKind

/-- `cluster_heatmap` per variant, threading the source map. -/
noncomputable def clusterHeatmapVarSt :
    ClustererKind → List (Cell × ℝ) → List (Cell × ℝ) × List (Cell × ℝ)
  | .ident, m => (m, m)
  | .kernel k, m => clusterHeatmapSt k m

/-- `Heatmap.normalize(norm_func)` (`heatmap.py` lines 42-53) threading
the source map: cluster, take the maximum (transformed when a
`norm_func` is supplied), and build the fresh `normalized` map entry by
entry.  Returns (source after all reads, normalized map). -/
noncomputable def normalizeSt (c : ClustererKind)
    (norm_func : Option (ℝ → ℝ → ℝ)) (m : List (Cell × ℝ)) :
    List (Cell × ℝ) × List (Cell × ℝ) :=
  let st := clusterHeatmapVarSt c m
  let clustered := st.2
  let max0 := (maxValue clustered).getD 0
  let max_value :=
    match norm_func with
    | some f => f max0 max0
    | none => max0
  let normalized := clustered.foldl
    (fun acc e =>
      let value :=
        match norm_func with
        | some f => f e.2 max_value
        | none => e.2
      setVal acc e.1 (value / max_value)) []
  (st.1, normalized)

/-! ## Normalization (`Heatmap.normalize`, `heatmap.py` lines 42-56)

With the default identity `Clusterer`, `cluster_heatmap` returns the map
itself; `normalize` takes the maximum of its values, optionally passes
`(value, max)` through the transform (for `normalize_log` the transform
is `log(value+1)`, applied to the maximum as well), and builds a fresh
map assigning `value*1./max_value` per entry.  Counts are naturals; the
normalized values are reals because of `math.log`.
-/

/-- The value `normalize` stores for a count `v` when the (untransformed)
maximum is `M`: `v/M` without a transform, `log(v+1)/log(M+1)` with the
log transform of `normalize_log`. -/
noncomputable def normVal (useLog : Bool) (M v : ℕ) : ℝ :=
  if useLog then Real.log ((v : ℝ) + 1) / Real.log ((M : ℝ) + 1)
  else (v : ℝ) / (M : ℝ)

/-- `Heatmap.normalize` under the identity clusterer: iterate the map's
entries in insertion order, storing the normalized value into a fresh
map (`normalized[point] = ...`). -/
noncomputable def normalizeId (useLog : Bool) (m : List (Cell × ℕ)) :
    List (Cell × ℝ) :=
  let M := (maxValue m).getD 0
  m.foldl (fun acc e => setVal acc e.1 (normVal useLog M e.2)) []

/-! ## Track segmenter (`geo.py` lines 276-296, `PolyLine.append` 163-165)

`get_lines` consumes an activity (a sequence of geographic points), using
the duck-typed `latlon.distance(prev)` metric and
`Point(*projection.project(latlon))`; the embedding is generic over the
element type `α` with the distance `dist` and the composed
project-and-round map `proj`, exactly the two capabilities the source
uses.  The gap test `if distance and distance > max_gap` is falsy when
the distance is `None` (only at the first point, handled by the top-level
case split) or `0`.
-/

/-- `PolyLine.append` (`geo.py` lines 163-165): append unless the new
coordinate equals the current last one. -/
def appendPt (coords : List Cell) (c : Cell) : List Cell :=
  if (coords ≠ [] ∧ coords.getLast? ≠ some c) ∨ coords = [] then coords ++ [c]
  else coords

/-- The loop of `get_lines` after the first point: `prev` is the previous
geographic point, `line` the current polyline under construction. -/
def getLinesAux {α : Type} (dist : α → α → ℚ) (proj : α → Cell)
    (maxGap : ℚ) (prev : α) (line : List Cell) :
    List α → List (List Cell)
  | [] => [line]
  | p :: rest =>
      let d := dist prev p
      if d ≠ 0 ∧ maxGap < d then
        (if line = [] then [] else [line]) ++
          getLinesAux dist proj maxGap p (appendPt [] (proj p)) rest
      else
        getLinesAux dist proj maxGap p (appendPt line (proj p)) rest

/-- `get_lines(activity, projection, max_gap)`: the first point never
sees a gap (its distance is `None`); the final `yield line` is the `[]`
case of the loop. -/
def get_lines {α : Type} (dist : α → α → ℚ) (proj : α → Cell)
    (maxGap : ℚ) (activity : List α) : List (List Cell) :=
  match activity with
  | [] => [[]]
  | p :: rest => getLinesAux dist proj maxGap p (appendPt [] (proj p)) rest

/-- Points of the tail dropped as consecutive duplicates: a point whose
projection equals the previous point's projection is dropped, unless a
gap intervened (then it starts a fresh polyline and is kept). -/
def drops {α : Type} (dist : α → α → ℚ) (proj : α → Cell)
    (maxGap : ℚ) (prev : α) : List α → ℕ
  | [] => 0
  | p :: rest =>
      (if dist prev p ≠ 0 ∧ maxGap < dist prev p then 0
       else if proj p = proj prev then 1 else 0)
        + drops dist proj maxGap p rest

/-- Duplicate-collapse count for a whole activity. -/
def dropCount {α : Type} (dist : α → α → ℚ) (proj : α → Cell)
    (maxGap : ℚ) : List α → ℕ
  | [] => 0
  | p :: rest => drops dist proj maxGap p rest

/-- Number of gaps after `prev` in the tail. -/
def gaps {α : Type} (dist : α → α → ℚ) (maxGap : ℚ) (prev : α) :
    List α → ℕ
  | [] => 0
  | p :: rest =>
      (if dist prev p ≠ 0 ∧ maxGap < dist prev p then 1 else 0)
        + gaps dist maxGap p rest

/-- Number of gap-splits in a whole activity. -/
def gapCount {α : Type} (dist : α → α → ℚ) (maxGap : ℚ) :
    List α → ℕ
  | [] => 0
  | p :: rest => gaps dist maxGap p rest

/-- Total number of points over a list of polylines. -/
def sumLen (lines : List (List Cell)) : ℕ :=
  (lines.map List.length).sum

/-! ## Lookup / update lemmas for the Counter embedding -/

theorem lookupV_setVal {V : Type} (m : List (Cell × V)) (p q : Cell) (v : V) :
    lookupV (setVal m p v) q = if q = p then some v else lookupV m q := by
  induction m with
  | nil =>
      by_cases h : p = q
      · subst h
        simp [setVal, lookupV]
      · simp [setVal, lookupV, h, Ne.symm h]
  | cons e rest ih =>
      simp only [setVal]
      by_cases he : e.1 = p
      · rw [if_pos he]
        by_cases hq : q = p
        · subst hq
          simp [lookupV, ih]
        · simp only [lookupV, ih, hq, if_false]
          have : ¬p = q := fun hh => hq hh.symm
          rw [if_neg this, if_neg (fun hh : e.1 = q => hq (he.symm.trans hh).symm)]
      · rw [if_neg he]
        by_cases hq : e.1 = q
        · have hqp : ¬q = p := fun hh => he (hq.trans hh)
          simp [lookupV, hq, hqp]
        · simp [lookupV, hq, ih]

theorem getCount_setVal {V : Type} [Zero V] (m : List (Cell × V))
    (p q : Cell) (v : V) :
    getCount (setVal m p v) q = if q = p then v else getCount m q := by
  by_cases h : q = p <;> simp [getCount, lookupV_setVal, h]

theorem getCount_incr (m : List (Cell × ℕ)) (p q : Cell) :
    getCount (incr m p) q = getCount m q + (if q = p then 1 else 0) := by
  by_cases h : q = p
  · subst h
    simp [incr, getCount_setVal]
  · simp [incr, getCount_setVal, h]

theorem getCount_foldl_incr (pts : List Cell) (m : List (Cell × ℕ))
    (q : Cell) :
    getCount (pts.foldl incr m) q = getCount m q + countCell q pts := by
  induction pts generalizing m with
  | nil => simp [countCell]
  | cons p rest ih =>
      simp only [List.foldl_cons, countCell]
      rw [ih, getCount_incr]
      omega

theorem getCount_hUpdate (cps : List Cell → List Cell)
    (m : List (Cell × ℕ)) (line : List Cell) (q : Cell) :
    getCount (hUpdate cps m line) q =
      getCount m q + countCell q (cps line) := by
  exact getCount_foldl_incr _ _ _

theorem getCount_buildMap (cps : List Cell → List Cell)
    (m : List (Cell × ℕ)) (lines : List (List Cell)) (q : Cell) :
    getCount (buildMap cps m lines) q =
      getCount m q + (lines.map (fun l => countCell q (cps l))).sum := by
  induction lines generalizing m with
  | nil => simp [buildMap]
  | cons l rest ih =>
      simp only [buildMap, List.foldl_cons, List.map_cons, List.sum_cons]
      rw [show rest.foldl (hUpdate cps) (hUpdate cps m l) =
            buildMap cps (hUpdate cps m l) rest from rfl, ih,
          getCount_hUpdate]
      omega

/-! ## Helper lemmas about `foldl max` / `foldl min` -/

theorem le_foldl_max {α : Type} [LinearOrder α] (xs : List α) (a : α) :
    a ≤ xs.foldl max a := by
  induction xs generalizing a with
  | nil => exact le_refl a
  | cons y ys ih =>
      simp only [List.foldl_cons]
      exact le_trans (le_max_left a y) (ih (max a y))

theorem foldl_max_mem {α : Type} [LinearOrder α] (xs : List α) (a : α) :
    xs.foldl max a = a ∨ xs.foldl max a ∈ xs := by
  induction xs generalizing a with
  | nil => exact Or.inl rfl
  | cons y ys ih =>
      simp only [List.foldl_cons]
      rcases ih (max a y) with h | h
      · rcases max_choice a y with hm | hm
        · exact Or.inl (h.trans hm)
        · exact Or.inr (List.mem_cons.mpr (Or.inl (h.trans hm)))
      · exact Or.inr (List.mem_cons.mpr (Or.inr h))

theorem mem_le_foldl_max {α : Type} [LinearOrder α] (xs : List α) (a y : α)
    (h : y ∈ xs) : y ≤ xs.foldl max a := by
  induction xs generalizing a with
  | nil => cases h
  | cons z zs ih =>
      simp only [List.foldl_cons]
      rcases List.mem_cons.mp h with rfl | hz
      · exact le_trans (le_max_right a y) (le_foldl_max zs (max a y))
      · exact ih _ hz

theorem foldl_min_le {α : Type} [LinearOrder α] (xs : List α) (a : α) :
    xs.foldl min a ≤ a := by
  induction xs generalizing a with
  | nil => exact le_refl a
  | cons y ys ih =>
      simp only [List.foldl_cons]
      exact le_trans (ih (min a y)) (min_le_left a y)

theorem foldl_min_mem {α : Type} [LinearOrder α] (xs : List α) (a : α) :
    xs.foldl min a = a ∨ xs.foldl min a ∈ xs := by
  induction xs generalizing a with
  | nil => exact Or.inl rfl
  | cons y ys ih =>
      simp only [List.foldl_cons]
      rcases ih (min a y) with h | h
      · rcases min_choice a y with hm | hm
        · exact Or.inl (h.trans hm)
        · exact Or.inr (List.mem_cons.mpr (Or.inl (h.trans hm)))
      · exact Or.inr (List.mem_cons.mpr (Or.inr h))

theorem foldl_min_le_mem {α : Type} [LinearOrder α] (xs : List α) (a y : α)
    (h : y ∈ xs) : xs.foldl min a ≤ y := by
  induction xs generalizing a with
  | nil => cases h
  | cons z zs ih =>
      simp only [List.foldl_cons]
      rcases List.mem_cons.mp h with rfl | hz
      · exact le_trans (foldl_min_le zs (min a y)) (min_le_right a y)
      · exact ih _ hz

theorem sumLen_append (l1 l2 : List (List Cell)) :
    sumLen (l1 ++ l2) = sumLen l1 + sumLen l2 := by
  simp [sumLen]

theorem appendPt_getLast (line : List Cell) (c : Cell) :
    (appendPt line c).getLast? = some c := by
  unfold appendPt
  split
  · simp
  · rename_i h
    push_neg at h
    exact h.1 h.2

theorem appendPt_ne_nil (line : List Cell) (c : Cell) :
    appendPt line c ≠ [] := by
  unfold appendPt
  split
  · exact fun h => by simpa using congrArg List.length h
  · rename_i h
    push_neg at h
    exact h.2

theorem appendPt_dup (line : List Cell) (c : Cell)
    (h : line.getLast? = some c) : appendPt line c = line := by
  unfold appendPt
  rw [if_neg]
  rintro (⟨-, hne⟩ | hnil)
  · exact hne h
  · subst hnil
    simp at h

theorem appendPt_new (line : List Cell) (c c' : Cell)
    (h : line.getLast? = some c') (hne : c' ≠ c) :
    appendPt line c = line ++ [c] := by
  unfold appendPt
  rw [if_pos]
  left
  constructor
  · intro hl
    subst hl
    simp at h
  · rw [h]
    exact fun hh => hne (Option.some.inj hh)

theorem getLinesAux_sum {α : Type} (dist : α → α → ℚ) (proj : α → Cell)
    (maxGap : ℚ) (ps : List α) :
    ∀ (prev : α) (line : List Cell), line.getLast? = some (proj prev) →
      sumLen (getLinesAux dist proj maxGap prev line ps)
          + drops dist proj maxGap prev ps
        = line.length + ps.length := by
  induction ps with
  | nil =>
      intro prev line _
      simp [getLinesAux, sumLen, drops]
  | cons p rest ih =>
      intro prev line hlast
      have hne : line ≠ [] := by
        intro h
        rw [h] at hlast
        cases hlast
      simp only [getLinesAux, drops, List.length_cons]
      by_cases hg : dist prev p ≠ 0 ∧ maxGap < dist prev p
      · rw [if_pos hg, if_pos hg, if_neg hne, sumLen_append]
        have h2 := ih p (appendPt [] (proj p)) (appendPt_getLast _ _)
        have hlen1 : (appendPt [] (proj p)).length = 1 := by
          simp [appendPt]
        rw [hlen1] at h2
        have hs1 : sumLen [line] = line.length := by
          simp [sumLen]
        omega
      · rw [if_neg hg, if_neg hg]
        by_cases hd : proj p = proj prev
        · rw [if_pos hd]
          have heq : appendPt line (proj p) = line := by
            refine appendPt_dup _ _ ?_
            rw [hlast, hd]
          have h2 := ih p (appendPt line (proj p))
            (by rw [appendPt_getLast])
          rw [heq] at h2 ⊢
          omega
        · rw [if_neg hd]
          have heq : appendPt line (proj p) = line ++ [proj p] :=
            appendPt_new _ _ _ hlast fun hh => hd hh.symm
          have h2 := ih p (appendPt line (proj p))
            (by rw [appendPt_getLast])
          rw [heq, List.length_append, List.length_singleton] at h2
          rw [heq]
          omega

theorem getLinesAux_len {α : Type} (dist : α → α → ℚ) (proj : α → Cell)
    (maxGap : ℚ) (ps : List α) :
    ∀ (prev : α) (line : List Cell), line ≠ [] →
      (getLinesAux dist proj maxGap prev line ps).length
        = gaps dist maxGap prev ps + 1 := by
  induction ps with
  | nil =>
      intro prev line _
      simp [getLinesAux, gaps]
  | cons p rest ih =>
      intro prev line hne
      simp only [getLinesAux, gaps]
      by_cases hg : dist prev p ≠ 0 ∧ maxGap < dist prev p
      · rw [if_pos hg, if_pos hg, if_neg hne, List.length_append]
        rw [ih p (appendPt [] (proj p)) (appendPt_ne_nil _ _)]
        simp
        omega
      · rw [if_neg hg, if_neg hg]
        rw [ih p (appendPt line (proj p)) (appendPt_ne_nil _ _)]
        omega

/-! ## Membership lemmas for the once-mode generator -/

theorem mem_cpAux_once (c : Cell → Cell) (line : List Cell)
    (prev : Option Cell) (p : Cell) (hp : p ∈ line) :
    c p ∈ cpAux true c prev line ∨ some (c p) = prev := by
  induction line generalizing prev with
  | nil => cases hp
  | cons x rest ih =>
      rcases List.mem_cons.mp hp with rfl | hp'
      · by_cases h : some (c p) = prev
        · exact Or.inr h
        · left
          simp [cpAux, h]
      · rcases ih (some (c x)) hp' with hin | heq
        · left
          by_cases h : some (c x) = prev
          · simpa [cpAux, h] using hin
          · simp only [cpAux, if_pos rfl, if_neg h]
            exact List.mem_cons_of_mem _ hin
        · have hcc : c p = c x := Option.some.inj heq
          by_cases h : some (c x) = prev
          · exact Or.inr (by rw [hcc]; exact h)
          · left
            simp only [cpAux, if_pos rfl, if_neg h, hcc]
            exact List.mem_cons_self _ _

theorem mem_clusterPoints_once (c : Cell → Cell) (line : List Cell)
    (p : Cell) (hp : p ∈ line) : c p ∈ clusterPoints true c line := by
  rcases mem_cpAux_once c line none p hp with h | h
  · exact h
  · simp at h

theorem one_le_countCell_of_mem (q : Cell) (l : List Cell) (h : q ∈ l) :
    1 ≤ countCell q l := by
  induction l with
  | nil => cases h
  | cons x rest ih =>
      rcases List.mem_cons.mp h with rfl | h'
      · simp only [countCell]
        split
        · omega
        · simp_all
      · have := ih h'
        simp only [countCell]
        omega

theorem mem_of_getLast_opt (l : List Cell) (a : Cell)
    (h : l.getLast? = some a) : a ∈ l := by
  induction l with
  | nil => cases h
  | cons x rest ih =>
      cases rest with
      | nil =>
          simp only [List.getLast?_singleton] at h
          cases h
          exact List.mem_singleton_self _
      | cons y t =>
          rw [List.getLast?_cons_cons] at h
          exact List.mem_cons_of_mem _ (ih h)

theorem mem_of_head_opt (l : List Cell) (b : Cell)
    (h : l.head? = some b) : b ∈ l := by
  cases l with
  | nil => cases h
  | cons x rest =>
      simp only [List.head?_cons] at h
      cases h
      exact List.mem_cons_self _ _

/-! ## Lemmas for normalization -/

theorem setVal_of_absent {V : Type} (m : List (Cell × V)) (p : Cell) (v : V)
    (h : lookupV m p = none) : setVal m p v = m ++ [(p, v)] := by
  induction m with
  | nil => rfl
  | cons e rest ih =>
      simp only [lookupV] at h
      by_cases he : e.1 = p
      · rw [if_pos he] at h
        cases h
      · rw [if_neg he] at h
        simp only [setVal, if_neg he]
        rw [ih h, List.cons_append]

theorem lookupV_append {V : Type} (l1 l2 : List (Cell × V)) (q : Cell) :
    lookupV (l1 ++ l2) q =
      match lookupV l1 q with
      | some v => some v
      | none => lookupV l2 q := by
  induction l1 with
  | nil => rfl
  | cons e rest ih =>
      by_cases he : e.1 = q
      · simp [lookupV, he]
      · simp [lookupV, he, ih]

theorem foldl_setVal_go (f : Cell × ℕ → ℝ) (m : List (Cell × ℕ)) :
    ∀ (acc : List (Cell × ℝ)),
      (∀ e ∈ m, lookupV acc e.1 = none) →
      (m.map Prod.fst).Nodup →
      m.foldl (fun a e => setVal a e.1 (f e)) acc
        = acc ++ m.map (fun e => (e.1, f e)) := by
  induction m with
  | nil =>
      intro acc _ _
      simp
  | cons e rest ih =>
      intro acc hdisj hnd
      simp only [List.map_cons, List.nodup_cons] at hnd
      simp only [List.foldl_cons]
      rw [setVal_of_absent acc e.1 (f e) (hdisj e (List.mem_cons_self _ _))]
      rw [ih (acc ++ [(e.1, f e)]) ?_ hnd.2]
      · simp [List.append_assoc]
      · intro e' he'
        rw [lookupV_append, hdisj e' (List.mem_cons_of_mem _ he')]
        have hne2 : ¬e.1 = e'.1 := fun hh =>
          hnd.1 (hh ▸ List.mem_map_of_mem Prod.fst he')
        simp [lookupV, hne2]

theorem normalizeId_eq_map (useLog : Bool) (m : List (Cell × ℕ))
    (hnd : (m.map Prod.fst).Nodup) :
    normalizeId useLog m =
      m.map (fun e => (e.1, normVal useLog ((maxValue m).getD 0) e.2)) := by
  unfold normalizeId
  exact foldl_setVal_go _ m [] (fun e _ => rfl) hnd

theorem lmax_eq_some {α : Type} [LinearOrder α] (l : List α) (a : α)
    (hmem : a ∈ l) (hub : ∀ x ∈ l, x ≤ a) : lmax l = some a := by
  cases l with
  | nil => cases hmem
  | cons x xs =>
      simp only [lmax, Option.some.injEq]
      refine le_antisymm ?_ ?_
      · rcases foldl_max_mem xs x with h | h
        · rw [h]
          exact hub x (List.mem_cons_self _ _)
        · exact hub _ (List.mem_cons_of_mem _ h)
      · rcases List.mem_cons.mp hmem with rfl | h
        · exact le_foldl_max _ _
        · exact mem_le_foldl_max _ _ _ h

theorem maxValue_spec (m : List (Cell × ℕ)) (hne : m ≠ []) :
    (maxValue m).getD 0 ∈ m.map Prod.snd ∧
    ∀ v ∈ m.map Prod.snd, v ≤ (maxValue m).getD 0 := by
  cases m with
  | nil => exact absurd rfl hne
  | cons e rest =>
      constructor
      · simp only [maxValue, lmax, List.map_cons, Option.getD_some]
        rcases foldl_max_mem (rest.map Prod.snd) e.2 with h | h
        · rw [h]
          exact List.mem_cons_self _ _
        · exact List.mem_cons_of_mem _ h
      · intro v hv
        simp only [maxValue, lmax, List.map_cons, Option.getD_some]
        simp only [List.map_cons] at hv
        rcases List.mem_cons.mp hv with rfl | h
        · exact le_foldl_max _ _
        · exact mem_le_foldl_max _ _ _ h

/-! ## Claim theorems: C3, C4, C7 -/

/-- C3: the claim says `Extent.update` is monotonic (min never increases,
max never decreases).  The code violates this: with `min = max = (0, 0)`
already held, `update([Point(1, 1)])` computes `min(0, 1) = 0`, which is
falsy, so the `... and ... or min_x` idiom falls through to the new value
and the stored minimum *increases* to `(1, 1)`.  This theorem evaluates
the embedded code at that failing input. -/
theorem extent_update_not_monotonic :
    (extentUpdate ⟨some (0, 0), some (0, 0)⟩ [(1, 1)]).emin =
      some ((1 : ℚ), (1 : ℚ)) := by
  decide

/-- C4: for any date with month `1..12`, `quarter_group` returns the year
together with an integer quarter index equal to `⌈month/3⌉`, which lies in
`1..4` (Python 2 integer division `(month-1)/3 + 1`). -/
theorem quarter_group_is_int_ceil (y m : ℕ) (h1 : 1 ≤ m) (h2 : m ≤ 12) :
    ((quarter_group y m).2 : ℤ) = ⌈(m : ℚ) / 3⌉ ∧
    1 ≤ (quarter_group y m).2 ∧ (quarter_group y m).2 ≤ 4 ∧
    (quarter_group y m).1 = y := by
  refine ⟨?_, ?_, ?_, rfl⟩
  · simp only [quarter_group]
    interval_cases m <;> rw [eq_comm] <;> norm_num [Int.ceil_eq_iff]
  · simp only [quarter_group]
    interval_cases m <;> decide
  · simp only [quarter_group]
    interval_cases m <;> decide

/-- Witness for C4: instantiation at February 2021 (month 2, quarter 1). -/
theorem quarter_group_is_int_ceil_witness :
    ((1 : ℕ) ≤ 2 ∧ (2 : ℕ) ≤ 12) ∧
    ((quarter_group 2021 2).2 : ℤ) = ⌈(2 : ℚ) / 3⌉ :=
  ⟨⟨by decide, by decide⟩, (quarter_group_is_int_ceil 2021 2 (by decide) (by decide)).1⟩

/-- C7: `min_value` / `max_value` on an empty density map fail (modelled
as `none`, the raised `ValueError` of Python's `min`/`max` on an empty
sequence) rather than returning a sentinel; on any non-empty map they
return the minimum resp. maximum of the stored values. -/
theorem heatmap_min_max_value (m : List (Cell × ℚ)) :
    (m = [] → minValue m = none ∧ maxValue m = none) ∧
    (m ≠ [] → (minValue m).isSome ∧ (maxValue m).isSome ∧
      (minValue m).getD 0 ∈ m.map Prod.snd ∧
      (maxValue m).getD 0 ∈ m.map Prod.snd ∧
      ∀ v ∈ m.map Prod.snd,
        (minValue m).getD 0 ≤ v ∧ v ≤ (maxValue m).getD 0) := by
  constructor
  · rintro rfl
    constructor
    · rfl
    · rfl
  · intro hne
    match m with
    | [] => exact absurd rfl hne
    | e :: rest =>
        simp only [minValue, maxValue, lmin, lmax, List.map_cons,
          Option.isSome_some, Option.getD_some]
        refine ⟨trivial, trivial, ?_, ?_, ?_⟩
        · rcases foldl_min_mem (rest.map Prod.snd) e.2 with h | h
          · exact List.mem_cons.mpr (Or.inl h)
          · exact List.mem_cons.mpr (Or.inr h)
        · rcases foldl_max_mem (rest.map Prod.snd) e.2 with h | h
          · exact List.mem_cons.mpr (Or.inl h)
          · exact List.mem_cons.mpr (Or.inr h)
        · intro v hv
          rcases List.mem_cons.mp hv with rfl | hv'
          · exact ⟨foldl_min_le _ _, le_foldl_max _ _⟩
          · exact ⟨foldl_min_le_mem _ _ _ hv', mem_le_foldl_max _ _ _ hv'⟩

/-- Witness for C7: concrete two-entry map with values `3` and `1`. -/
theorem heatmap_min_max_value_witness :
    (minValue [(((0 : ℤ), (0 : ℤ)), (3 : ℚ)),
               (((1 : ℤ), (0 : ℤ)), (1 : ℚ))]).isSome :=
  ((heatmap_min_max_value _).2 (by decide)).1

/-! ## Lemmas for the kernel and frame claims -/

theorem clusteredValueSt_fst (m : List (Cell × ℝ)) (l : List (Cell × ℝ)) :
    ∀ acc : ℝ, (clusteredValueSt m l acc).1 = m := by
  induction l with
  | nil =>
      intro acc
      rfl
  | cons kw rest ih =>
      intro acc
      simp only [clusteredValueSt, counterGet]
      exact ih _

theorem foldl_fst_fixed {α β γ : Type} (f : α × β → γ → α × β)
    (hf : ∀ st e, (f st e).1 = st.1) :
    ∀ (l : List γ) (st : α × β), (l.foldl f st).1 = st.1 := by
  intro l
  induction l with
  | nil =>
      intro st
      rfl
  | cons e rest ih =>
      intro st
      simp only [List.foldl_cons]
      rw [ih, hf]

theorem clusterHeatmapSt_fst (k : Kernel) (m : List (Cell × ℝ)) :
    (clusterHeatmapSt k m).1 = m := by
  unfold clusterHeatmapSt
  refine foldl_fst_fixed _ ?_ m (m, [])
  intro st e
  exact clusteredValueSt_fst st.1 _ 0

theorem sum_map_filterMap {β γ : Type} (l : List β) (f : β → Option γ)
    (g : γ → ℝ) :
    ((l.filterMap f).map g).sum
      = (l.map fun b => match f b with | some c => g c | none => 0).sum := by
  induction l with
  | nil => rfl
  | cons b rest ih =>
      cases hfb : f b with
      | none => simp [List.filterMap_cons, hfb, ih]
      | some c => simp [List.filterMap_cons, hfb, ih]

theorem sum_map_single_support (l : List (ℤ × ℤ)) (F : ℤ × ℤ → ℝ)
    (z : ℤ × ℤ) (hnd : l.Nodup) (hz : z ∈ l)
    (h0 : ∀ o ∈ l, o ≠ z → F o = 0) :
    (l.map F).sum = F z := by
  induction l with
  | nil => cases hz
  | cons x rest ih =>
      obtain ⟨hx, hndr⟩ := List.nodup_cons.mp hnd
      simp only [List.map_cons, List.sum_cons]
      rcases List.mem_cons.mp hz with rfl | hz'
      · have hrest : ∀ y ∈ rest.map F, y = 0 := by
          intro y hy
          obtain ⟨o, ho, rfl⟩ := List.mem_map.mp hy
          exact h0 o (List.mem_cons_of_mem _ ho)
            (fun hoz => hx (hoz ▸ ho))
        rw [List.sum_eq_zero hrest]
        ring
      · have hx0 : F x = 0 :=
          h0 x (List.mem_cons_self _ _) (fun hxz => hx (hxz ▸ hz'))
        rw [hx0, ih hndr hz'
          (fun o ho hoz => h0 o (List.mem_cons_of_mem _ ho) hoz)]
        ring

theorem offsetsList_nodup (r : ℕ) : (offsetsList r).Nodup := by
  unfold offsetsList
  apply List.Nodup.map
  · intro a b h
    simp only [Prod.mk.injEq] at h
    have h1 : a.1 = b.1 := by omega
    have h2 : a.2 = b.2 := by omega
    exact Prod.ext h1 h2
  · exact List.Nodup.product (List.nodup_range _) (List.nodup_range _)

theorem zero_mem_offsetsList (r : ℕ) :
    ((0 : ℤ), (0 : ℤ)) ∈ offsetsList r := by
  unfold offsetsList
  refine List.mem_map.mpr ⟨(r, r), ?_, by simp⟩
  have hr : r < 2 * r + 1 := by omega
  exact List.mem_product.mpr ⟨List.mem_range.mpr hr, List.mem_range.mpr hr⟩

theorem linearKernel_weight_zero (r : ℕ) (hr : 1 ≤ r) :
    (linearKernel r).weight 0 = 1 := by
  simp only [linearKernel]
  rw [if_neg]
  · simp
  · push_neg
    have : (1 : ℝ) ≤ (r : ℝ) := by exact_mod_cast hr
    linarith

theorem gaussianKernel_weight_zero (r : ℕ) (hr : 1 ≤ r) :
    (gaussianKernel r).weight 0 = 1 := by
  simp only [gaussianKernel]
  rw [if_neg]
  · norm_num
  · push_neg
    have : (1 : ℝ) ≤ (r : ℝ) := by exact_mod_cast hr
    linarith

theorem getCount_single (p q : Cell) (V : ℝ) :
    getCount [(p, V)] q = if p = q then V else 0 := by
  by_cases h : p = q <;> simp [getCount, lookupV, h]

theorem clusteredValue_single (k : Kernel) (p : Cell) (V : ℝ) (hV : V ≠ 0)
    (hw0 : k.weight 0 ≠ 0) :
    clusteredValue k [(p, V)] p = V * k.weight 0 := by
  unfold clusteredValue kernelPoints weightsMatrix
  rw [List.map_map, sum_map_filterMap]
  refine Eq.trans (sum_map_single_support _ _ ((0 : ℤ), (0 : ℤ))
    (offsetsList_nodup _) (zero_mem_offsetsList _) ?_) ?_
  · intro o ho hoz
    dsimp only
    by_cases hw :
        k.weight (Real.sqrt (((o.1 : ℝ)) ^ 2 + ((o.2 : ℝ)) ^ 2)) ≠ 0
    · rw [if_pos hw]
      have hnp : ¬p = (p.1 + o.1, p.2 + o.2) := by
        intro h
        apply hoz
        have h1 : p.1 = p.1 + o.1 := congrArg Prod.fst h
        have h2 : p.2 = p.2 + o.2 := congrArg Prod.snd h
        have ho1 : o.1 = 0 := by omega
        have ho2 : o.2 = 0 := by omega
        exact Prod.ext ho1 ho2
      simp [getCount_single, if_neg hnp]
    · rw [if_neg hw]
  · dsimp only
    have hs0 : Real.sqrt ((((0 : ℤ) : ℝ)) ^ 2 + (((0 : ℤ) : ℝ)) ^ 2) = 0 := by
      norm_num
    rw [hs0, if_pos hw0]
    have hpp : ((p.1 + 0 : ℤ), (p.2 + 0 : ℤ)) = p := by
      simp
    dsimp only [Function.comp]
    rw [hpp, getCount_single, if_pos rfl, if_pos hV]

/-- C1: for every non-empty density map of accumulated counts whose
maximum value is positive, and whether or not the optional log transform
is supplied, `normalize` returns a map whose maximum value equals `1` and
in which every originally-positive entry receives a value in `(0, 1]`. -/
theorem normalize_max_one (useLog : Bool) (m : List (Cell × ℕ))
    (hnd : (m.map Prod.fst).Nodup)
    (hpos : 0 < (maxValue m).getD 0) :
    maxValue (normalizeId useLog m) = some 1 ∧
    ∀ e ∈ m, 0 < e.2 →
      (e.1, normVal useLog ((maxValue m).getD 0) e.2) ∈ normalizeId useLog m ∧
      0 < normVal useLog ((maxValue m).getD 0) e.2 ∧
      normVal useLog ((maxValue m).getD 0) e.2 ≤ 1 := by
  have hne : m ≠ [] := by
    intro h
    subst h
    simp [maxValue, lmax] at hpos
  obtain ⟨hMmem, hMub⟩ := maxValue_spec m hne
  set M := (maxValue m).getD 0 with hMdef
  have hMR : (0 : ℝ) < (M : ℝ) := by exact_mod_cast hpos
  have hM1 : (1 : ℕ) ≤ M := hpos
  have hlogpos : 0 < Real.log ((M : ℝ) + 1) := by
    apply Real.log_pos
    have : (1 : ℝ) ≤ (M : ℝ) := by exact_mod_cast hM1
    linarith
  have hone : normVal useLog M M = 1 := by
    cases useLog with
    | false =>
        simp only [normVal, Bool.false_eq_true, if_false]
        exact div_self (ne_of_gt hMR)
    | true =>
        simp only [normVal, if_true]
        exact div_self (ne_of_gt hlogpos)
  have hub1 : ∀ v ∈ m.map Prod.snd, normVal useLog M v ≤ 1 := by
    intro v hv
    have hvM : (v : ℝ) ≤ (M : ℝ) := by exact_mod_cast hMub v hv
    cases useLog with
    | false =>
        simp only [normVal, Bool.false_eq_true, if_false]
        rw [div_le_one hMR]
        exact hvM
    | true =>
        simp only [normVal, if_true]
        rw [div_le_one hlogpos]
        gcongr
  have hposval : ∀ v : ℕ, 0 < v → 0 < normVal useLog M v := by
    intro v hv
    have hvR : (0 : ℝ) < (v : ℝ) := by exact_mod_cast hv
    cases useLog with
    | false =>
        simp only [normVal, Bool.false_eq_true, if_false]
        exact div_pos hvR hMR
    | true =>
        simp only [normVal, if_true]
        refine div_pos (Real.log_pos ?_) hlogpos
        have : (1 : ℝ) ≤ (v : ℝ) := by exact_mod_cast hv
        linarith
  have hmap := normalizeId_eq_map useLog m hnd
  rw [← hMdef] at hmap
  constructor
  · rw [hmap]
    have hsnd : (m.map fun e => (e.1, normVal useLog M e.2)).map Prod.snd =
        (m.map Prod.snd).map (normVal useLog M) := by
      simp [List.map_map]
    have hval : maxValue (m.map fun e => (e.1, normVal useLog M e.2)) =
        lmax ((m.map Prod.snd).map (normVal useLog M)) := by
      unfold maxValue
      rw [hsnd]
    rw [hval]
    apply lmax_eq_some
    · have := List.mem_map_of_mem (normVal useLog M) hMmem
      rwa [hone] at this
    · intro x hx
      obtain ⟨v, hv, rfl⟩ := List.mem_map.mp hx
      exact hub1 v hv
  · intro e he hepos
    refine ⟨?_, hposval e.2 hepos, hub1 e.2 (List.mem_map_of_mem Prod.snd he)⟩
    rw [hmap]
    exact List.mem_map_of_mem _ he

/-- Witness for C1: the two-cell map with counts `2` and `1`, no
transform; normalization yields maximum `1`. -/
theorem normalize_max_one_witness :
    maxValue (normalizeId false
      [(((0 : ℤ), (0 : ℤ)), 2), (((1 : ℤ), (0 : ℤ)), 1)]) = some 1 :=
  (normalize_max_one false _ (by decide) (by decide)).1

/-- C2: for every input sequence of geographic points, the total number
of points over all emitted polylines equals the input length minus the
number of points dropped as consecutive duplicates (consecutive points
whose projected coordinates coincide within one polyline), and the
number of emitted polylines is exactly the number of over-threshold gaps
plus one — every gap strictly exceeding the threshold produces one
boundary between two successive polylines. -/
theorem get_lines_counts {α : Type} (dist : α → α → ℚ) (proj : α → Cell)
    (maxGap : ℚ) (activity : List α) :
    sumLen (get_lines dist proj maxGap activity)
        + dropCount dist proj maxGap activity = activity.length ∧
    (get_lines dist proj maxGap activity).length
        = gapCount dist maxGap activity + 1 := by
  cases activity with
  | nil =>
      constructor
      · rfl
      · rfl
  | cons p rest =>
      constructor
      · have h := getLinesAux_sum dist proj maxGap rest p
          (appendPt [] (proj p)) (appendPt_getLast _ _)
        have hlen1 : (appendPt [] (proj p)).length = 1 := by
          simp [appendPt]
        rw [hlen1] at h
        simp only [get_lines, dropCount, List.length_cons]
        omega
      · simp only [get_lines, gapCount]
        exact getLinesAux_len dist proj maxGap rest p _ (appendPt_ne_nil _ _)

/-- C6: building a density map by `update` from the same multiset of
polylines in any order yields identical per-cell counts, for every
clusterer point-mapping (all clusterer variants' `cluster_points` are
per-call functions of the polyline). -/
theorem buildMap_perm_invariant (cps : List Cell → List Cell)
    (m : List (Cell × ℕ)) (ls1 ls2 : List (List Cell))
    (h : ls1.Perm ls2) (q : Cell) :
    getCount (buildMap cps m ls1) q = getCount (buildMap cps m ls2) q := by
  rw [getCount_buildMap, getCount_buildMap,
      (h.map fun l => countCell q (cps l)).sum_eq]

/-- Witness for C6: two concrete polylines through the once-scaled
clusterer, fed in both orders, agree at a concrete cell. -/
theorem buildMap_perm_invariant_witness :
    getCount (buildMap (scaledClusterPoints true (scaledInit 2)) []
        [[((4 : ℤ), (4 : ℤ))], [((2 : ℤ), (2 : ℤ))]]) (2, 2) =
      getCount (buildMap (scaledClusterPoints true (scaledInit 2)) []
        [[((2 : ℤ), (2 : ℤ))], [((4 : ℤ), (4 : ℤ))]]) (2, 2) :=
  buildMap_perm_invariant _ _ _ _ (by decide) _

/-- C9 counterexample: with `cluster_scale = 2` (stored reduction factor
`1/2`, 2-pixel coarse cells) the point `(4, 4)` lies on the coarse grid —
both coordinates are multiples of 2 — yet applying `cluster_point` twice
gives `(1, 1)` while applying it once gives `(2, 2)`: idempotence fails on
a coarse-grid point, refuting the claim's characterisation. -/
theorem scaled_idempotence_fails_on_grid :
    ((4 : ℤ), (4 : ℤ)) = ((2 * 2 : ℤ), (2 * 2 : ℤ)) ∧
    scaledClusterPoint (scaledInit 2)
        (scaledClusterPoint (scaledInit 2) (4, 4)) ≠
      scaledClusterPoint (scaledInit 2) (4, 4) := by
  have h1 : scaledClusterPoint (scaledInit 2) (4, 4) = ((2 : ℤ), (2 : ℤ)) := by
    simp only [scaledClusterPoint, scaledInit, mkPoint, pyRound]
    norm_num
  have h2 : scaledClusterPoint (scaledInit 2) (2, 2) = ((1 : ℤ), (1 : ℤ)) := by
    simp only [scaledClusterPoint, scaledInit, mkPoint, pyRound]
    norm_num
  refine ⟨by decide, ?_⟩
  rw [h1, h2]
  decide

/-- C9 amended: `cluster_point` rescales into downsampled cell-index
space rather than snapping to the coarse grid, so (i) applying it twice
equals applying it once precisely when the once-clustered point is a
fixed point of `cluster_point`; (ii) idempotence can hold at points off
the coarse grid (here `(1, 1)` at cluster scale 3, though 1 is not a
multiple of 3); and (iii) applying `cluster_point` with scale `s` and
then with scale `1/s` (which the constructor inverts back to `s`) does
not recover the original point. -/
theorem scaled_cluster_point_correct_properties :
    (∀ (s : ℚ) (p : Cell),
      scaledClusterPoint s (scaledClusterPoint s p) = scaledClusterPoint s p ↔
        Function.IsFixedPt (scaledClusterPoint s) (scaledClusterPoint s p)) ∧
    scaledClusterPoint (scaledInit 3)
        (scaledClusterPoint (scaledInit 3) (1, 1)) =
      scaledClusterPoint (scaledInit 3) (1, 1) ∧
    (∀ k : ℤ, (1 : ℤ) ≠ 3 * k) ∧
    scaledClusterPoint (scaledInit (1 / 2))
        (scaledClusterPoint (scaledInit 2) (4, 4)) ≠ ((4 : ℤ), (4 : ℤ)) := by
  have h1 : scaledClusterPoint (scaledInit 3) (1, 1) = ((0 : ℤ), (0 : ℤ)) := by
    simp only [scaledClusterPoint, scaledInit, mkPoint, pyRound]
    norm_num
  have h0 : scaledClusterPoint (scaledInit 3) (0, 0) = ((0 : ℤ), (0 : ℤ)) := by
    simp only [scaledClusterPoint, scaledInit, mkPoint, pyRound]
    norm_num
  have h2 : scaledClusterPoint (scaledInit 2) (4, 4) = ((2 : ℤ), (2 : ℤ)) := by
    simp only [scaledClusterPoint, scaledInit, mkPoint, pyRound]
    norm_num
  have h3 : scaledClusterPoint (scaledInit (1 / 2)) (2, 2) = ((1 : ℤ), (1 : ℤ)) := by
    simp only [scaledClusterPoint, scaledInit, mkPoint, pyRound]
    norm_num
  refine ⟨fun s p => Iff.rfl, ?_, ?_, ?_⟩
  · rw [h1, h0]
  · intro k
    omega
  · rw [h2, h3]
    decide

/-- C10: the count-once duplicate collapse is scoped to one
`cluster_points` call (`prev_cluster_point` is a local of the generator):
updating with two polylines whose adjoining endpoints map to the same
cluster cell `q` increments `q` by the per-polyline occurrence counts,
each at least 1 — no cross-polyline collapsing. -/
theorem update_no_cross_polyline_collapse (s : ℚ) (m : List (Cell × ℕ))
    (l1 l2 : List Cell) (a b q : Cell)
    (h1 : l1.getLast? = some a) (h2 : l2.head? = some b)
    (ha : scaledClusterPoint s a = q) (hb : scaledClusterPoint s b = q) :
    getCount (hUpdate (scaledClusterPoints true s)
        (hUpdate (scaledClusterPoints true s) m l1) l2) q =
      getCount m q + countCell q (scaledClusterPoints true s l1)
        + countCell q (scaledClusterPoints true s l2) ∧
    1 ≤ countCell q (scaledClusterPoints true s l1) ∧
    1 ≤ countCell q (scaledClusterPoints true s l2) := by
  refine ⟨?_, ?_, ?_⟩
  · rw [getCount_hUpdate, getCount_hUpdate]
  · exact one_le_countCell_of_mem _ _
      (ha ▸ mem_clusterPoints_once _ _ _ (mem_of_getLast_opt _ _ h1))
  · exact one_le_countCell_of_mem _ _
      (hb ▸ mem_clusterPoints_once _ _ _ (mem_of_head_opt _ _ h2))

/-- Witness for C10: two one-point polylines at `(4, 4)` with scale `1/2`;
the shared cluster cell is counted once per polyline. -/
theorem update_no_cross_polyline_collapse_witness :
    1 ≤ countCell (scaledClusterPoint (1 / 2) (4, 4))
        (scaledClusterPoints true (1 / 2) [(4, 4)]) :=
  (update_no_cross_polyline_collapse (1 / 2) [] [(4, 4)] [(4, 4)]
      (4, 4) (4, 4) (scaledClusterPoint (1 / 2) (4, 4)) rfl rfl rfl rfl).2.1

/-! ## Claim theorems: C5, C8 -/

/-- C5: for a Linear or Gaussian kernel clusterer with integer radius
`r ≥ 1` and a density map holding a single point `p` with value `V ≠ 0`,
`cluster_heatmap` produces a map that is nonzero only within euclidean
distance `r` of `p` (squared-distance form), and whose value at `p`
itself equals `V * weight(0)`. -/
theorem kernel_cluster_single_point (k : Kernel) (r : ℕ) (p : Cell) (V : ℝ)
    (hk : k = linearKernel r ∨ k = gaussianKernel r) (hr : 1 ≤ r)
    (hV : V ≠ 0) :
    getCount (clusterHeatmapK k [(p, V)]) p = V * k.weight 0 ∧
    ∀ q : Cell, getCount (clusterHeatmapK k [(p, V)]) q ≠ 0 →
      (q.1 - p.1) ^ 2 + (q.2 - p.2) ^ 2 ≤ ((r : ℤ)) ^ 2 := by
  have hw0 : k.weight 0 = 1 := by
    rcases hk with rfl | rfl
    · exact linearKernel_weight_zero r hr
    · exact gaussianKernel_weight_zero r hr
  have hw0' : k.weight 0 ≠ 0 := by
    rw [hw0]
    norm_num
  have hform : clusterHeatmapK k [(p, V)] =
      [(p, clusteredValue k [(p, V)] p)] := rfl
  constructor
  · rw [hform]
    simp only [getCount_single, if_pos rfl]
    exact clusteredValue_single k p V hV hw0'
  · intro q hq
    rw [hform, getCount_single] at hq
    by_cases hpq : p = q
    · subst hpq
      simp only [sub_self]
      positivity
    · rw [if_neg hpq] at hq
      exact absurd rfl hq

/-- Witness for C5: linear kernel of radius 1, single point of value 1. -/
theorem kernel_cluster_single_point_witness :
    getCount (clusterHeatmapK (linearKernel 1) [(((0 : ℤ), (0 : ℤ)), 1)])
        ((0 : ℤ), (0 : ℤ)) = 1 * (linearKernel 1).weight 0 :=
  (kernel_cluster_single_point (linearKernel 1) 1 ((0 : ℤ), (0 : ℤ)) 1
      (Or.inl rfl) (by decide) one_ne_zero).1

/-- C8: for every density map, every clusterer variant (the base and
scaled clusterers, whose `cluster_heatmap` is the identity, and the
kernel clusterers) and every optional transform, `normalize` builds its
result in a fresh map and leaves the source map's contents unchanged:
the state-threaded embedding returns the source exactly as it went in
(`Counter` reads never insert, and all writes target the new maps). -/
theorem normalize_never_mutates_source (c : ClustererKind)
    (norm_func : Option (ℝ → ℝ → ℝ)) (m : List (Cell × ℝ)) :
    (normalizeSt c norm_func m).1 = m := by
  cases c with
  | ident => rfl
  | kernel k => exact clusterHeatmapSt_fst k m

end GpsHeatmap
